import Mathlib

/-!
Verification of the flag value resolution and command-tree dispatch engine of
the `cli` library (Go).  The Go source is shallowly embedded: each Go function
used by a claim is translated into an executable Lean definition, and the
claims are settled as theorems about those definitions.

Conventions used throughout:
* Go strings are Lean `String`s; byte-level operations of the Go standard
  library (`strings.HasPrefix`, `strings.Split`, `strings.TrimSpace`,
  `strings.Join`) are modelled at character level, which agrees with the Go
  behaviour on the ASCII data the library manipulates.
* Go `error` results are modelled as `Option String` (`none` = nil error).
* Go in-place mutation of a value cell is modelled by explicit state passing:
  a Go method with receiver `*SliceBase` becomes a Lean function returning the
  updated `SliceBase` together with the `error` result.
-/

namespace Cli

/-! ## Character-level models of the Go `strings` helpers -/

/-- Model of Go `strings.HasPrefix` on character lists. -/
def isPfxOf : List Char → List Char → Bool
  | [], _ => true
  | _ :: _, [] => false
  | a :: as, b :: bs => a == b && isPfxOf as bs

/-- Model of Go `strings.HasPrefix`. -/
def goHasPfx (p s : String) : Bool := isPfxOf p.data s.data

/-- Model of Go `strings.Replace(s, p, "", 1)` in the only situation the
library uses it: `p` is known to be a text prefix of `s`, so removing the
first occurrence of `p` drops `p` from the front. -/
def goDropPfx (p s : String) : String := ⟨s.data.drop p.data.length⟩

/-- Model of Go `strings.TrimSpace` (character-level whitespace trim). -/
def goTrim (s : String) : String :=
  ⟨((s.data.dropWhile Char.isWhitespace).reverse.dropWhile Char.isWhitespace).reverse⟩

/-- Model of Go `strings.Join`. -/
def goJoin (sep : String) : List String → String
  | [] => ""
  | [x] => x
  | x :: xs => x ++ sep ++ goJoin sep xs

/-- Worker for `goSplit`.  The fuel argument is an upper bound on the number
of characters still to be scanned; every step consumes at least one character,
so `s.length` fuel always suffices and the fallback branch is unreachable for
the inputs `goSplit` passes in. -/
def goSplitAux (sep : List Char) : Nat → List Char → List Char → List (List Char)
  | _, [], acc => [acc.reverse]
  | 0, s, acc => [acc.reverse ++ s]
  | fuel + 1, c :: rest, acc =>
    if isPfxOf sep (c :: rest) then
      acc.reverse :: goSplitAux sep fuel ((c :: rest).drop sep.length) []
    else
      goSplitAux sep fuel rest (c :: acc)

/-- Model of Go `strings.Split(s, sep)`: splits around every leftmost
non-overlapping instance of `sep`; with an empty separator the string is
exploded into its characters. -/
def goSplit (sep s : String) : List String :=
  if sep.data.isEmpty then s.data.map (fun c => String.mk [c])
  else (goSplitAux sep.data s.data.length s.data []).map String.mk

/-! ## Collection value cell (`SliceBase`, src/unnamed/part_004)

The Go type `SliceBase[T, C, VC]` holds `slice *[]T`, `hasBeenSet bool` and an
inner single-element cell `value flag.Value`.  The inner cell's
`Set`-then-`Get` pair is abstracted as `elemSet : String → Option T`
(`none` = the inner `Set` returned an error or the `Get` cast failed); the
standard-library JSON codec used by `Serialize`/`Set` is abstracted as the
`enc`/`dec` pair.  The process-wide separator state (`defaultSliceFlagSeparator`
and `disableSliceFlagSeparator` in flag.go) is passed explicitly. -/

/-- The per-kind environment of a collection cell: the reserved serialization
prefix `slPfx`, the active separator, the inner element cell, the formatter of
one element and the JSON codec used for the serialized form. -/
structure SliceEnv (T : Type) where
  slPfx : String
  sep : String
  elemSet : String → Option T
  elemToString : T → String
  enc : List T → String
  dec : String → Option (List T)

/-- State of a Go `SliceBase` cell: the pointed-to slice and `hasBeenSet`. -/
structure SliceBase (T : Type) where
  slice : List T
  hasBeenSet : Bool
deriving Repr, DecidableEq

/-- Modelled from the spec: `flagSplitMultiValues` (flag.go) is not under
src/; only its tests are.  Per the spec, splitting happens on the configured
separator, "with a global override to disable splitting entirely (treating the
whole string as one element)", which the regression test
`TestFlagSplitMultiValues_Disabled` pins. -/
def flagSplitMultiValues (disable : Bool) (sep : String) (val : String) : List String :=
  if disable then [val] else goSplit sep val

/-- The element loop of `SliceBase.Set`: for each token, run the inner cell's
`Set` on the trimmed token and append the parsed element; stop with the error
on the first failing token (elements appended so far stay, as in Go where the
slice is mutated in place). -/
def setTokens {T : Type} (env : SliceEnv T) :
    SliceBase T → List String → SliceBase T × Option String
  | c, [] => (c, none)
  | c, s :: rest =>
    match env.elemSet (goTrim s) with
    | none => (c, some s)
    | some t => setTokens env ⟨c.slice ++ [t], c.hasBeenSet⟩ rest

/-- Embedding of `SliceBase.Set` (src/unnamed/part_004 lines 49-74): the first
`Set` after construction clears the pre-existing contents; a value carrying the
reserved serialization prefix is deserialized and overwrites the contents
wholesale (a JSON decoding error is discarded, as the Go code ignores the
`json.Unmarshal` error); otherwise the value is split into tokens and each
token is parsed and appended. -/
def SliceBase.set {T : Type} (env : SliceEnv T) (disable : Bool)
    (c : SliceBase T) (value : String) : SliceBase T × Option String :=
  let c1 := if c.hasBeenSet then c else ⟨[], true⟩
  if goHasPfx env.slPfx value then
    match env.dec (goDropPfx env.slPfx value) with
    | some l => (⟨l, true⟩, none)
    | none => ({ c1 with hasBeenSet := true }, none)
  else
    setTokens env c1 (flagSplitMultiValues disable env.sep value)

/-- Embedding of `SliceBase.Serialize` (src/unnamed/part_004 lines 87-90). -/
def SliceBase.serialize {T : Type} (env : SliceEnv T) (c : SliceBase T) : String :=
  env.slPfx ++ env.enc c.slice

/-- Embedding of `SliceBase.ToString` (src/unnamed/part_004 lines 105-112),
the formatted contents of the cell. -/
def SliceBase.format {T : Type} (env : SliceEnv T) (c : SliceBase T) : String :=
  goJoin ", " (c.slice.map env.elemToString)

/-- All tokens of `value` parsed through the inner element cell, `none` if any
token fails. -/
def parsedTokens {T : Type} (env : SliceEnv T) (disable : Bool) (value : String) :
    Option (List T) :=
  (flagSplitMultiValues disable env.sep value).mapM (fun s => env.elemSet (goTrim s))

/-! ### Behaviour of `SliceBase.set` on token lists -/

theorem setTokens_ok {T : Type} (env : SliceEnv T) :
    ∀ (toks : List String) (c : SliceBase T) (ts : List T),
      toks.mapM (fun s => env.elemSet (goTrim s)) = some ts →
      setTokens env c toks = (⟨c.slice ++ ts, c.hasBeenSet⟩, none) := by
  intro toks
  induction toks with
  | nil =>
    intro c ts h
    simp only [List.mapM_nil, pure, Option.some.injEq] at h
    subst h
    simp [setTokens]
  | cons s rest ih =>
    intro c ts h
    rw [List.mapM_cons] at h
    cases hs : env.elemSet (goTrim s) with
    | none => rw [hs] at h; simp at h
    | some t =>
      rw [hs] at h
      cases hr : rest.mapM (fun s => env.elemSet (goTrim s)) with
      | none => rw [hr] at h; simp at h
      | some ts' =>
        rw [hr] at h
        simp only [Option.bind_eq_bind, Option.some_bind, pure, Option.some.injEq] at h
        subst h
        simp only [setTokens, hs]
        rw [ih ⟨c.slice ++ [t], c.hasBeenSet⟩ ts' hr]
        simp

/-- The first successful `set` of a fresh cell parses the tokens of `value`
and installs them in place of whatever the cell previously held. -/
theorem set_first {T : Type} (env : SliceEnv T) (disable : Bool) (c : SliceBase T)
    (value : String) (ts : List T)
    (hset : c.hasBeenSet = false)
    (hpfx : goHasPfx env.slPfx value = false)
    (htok : parsedTokens env disable value = some ts) :
    SliceBase.set env disable c value = (⟨ts, true⟩, none) := by
  unfold SliceBase.set
  rw [hpfx, hset]
  simp only [Bool.false_eq_true, if_false]
  rw [setTokens_ok env _ _ _ htok]
  simp

/-- Every subsequent `set` in the same parse appends the parsed tokens. -/
theorem set_subsequent {T : Type} (env : SliceEnv T) (disable : Bool) (c : SliceBase T)
    (value : String) (ts : List T)
    (hset : c.hasBeenSet = true)
    (hpfx : goHasPfx env.slPfx value = false)
    (htok : parsedTokens env disable value = some ts) :
    SliceBase.set env disable c value = (⟨c.slice ++ ts, true⟩, none) := by
  unfold SliceBase.set
  rw [hpfx, hset]
  simp only [if_true, Bool.false_eq_true, if_false]
  rw [setTokens_ok env _ _ _ htok, hset]

/-! ### Concrete environment for the string-slice kind

The string kind's inner cell (`stringValue.Set`) accepts every raw token
unchanged and formats it as itself, so it is modelled as `some`/identity.  The
JSON codec fields are instantiated per use; the serialization prefix follows
the `sl:::<nonce>:::` shape of flag.go with a fixed nonce. -/

/-- A JSON-style encoder for a string array, as `json.Marshal` produces for
`[]string`: a bracketed, comma-separated list of quoted strings with `"` and
`\` escaped. -/
def jsonEncStr (l : List String) : String :=
  "[" ++ goJoin "," (l.map (fun s =>
    "\"" ++ String.mk (s.data.flatMap (fun c =>
      if c = '"' ∨ c = '\\' then ['\\', c] else [c])) ++ "\"")) ++ "]"

/-- Worker: parse one JSON string body (after the opening quote), returning
the unescaped content and the rest after the closing quote. -/
def jsonDecStrAux : Nat → List Char → List Char → Option (List Char × List Char)
  | 0, _, _ => none
  | _ + 1, [], _ => none
  | fuel + 1, c :: rest, acc =>
    if c = '\\' then
      match rest with
      | [] => none
      | d :: rest' => jsonDecStrAux fuel rest' (d :: acc)
    else if c = '"' then some (acc.reverse, rest)
    else jsonDecStrAux fuel rest (c :: acc)

/-- Worker: parse the comma-separated quoted strings of a JSON array body. -/
def jsonDecElems : Nat → List Char → Option (List String)
  | 0, _ => none
  | fuel + 1, s =>
    match s with
    | '"' :: rest =>
      match jsonDecStrAux (rest.length + 1) rest [] with
      | none => none
      | some (content, rest') =>
        match rest' with
        | [']'] => some [String.mk content]
        | ',' :: rest'' => (jsonDecElems fuel rest'').map (String.mk content :: ·)
        | _ => none
    | _ => none

/-- A decoder for the string arrays produced by `jsonEncStr`, as
`json.Unmarshal` accepts for `[]string`. -/
def jsonDecStr (s : String) : Option (List String) :=
  match s.data with
  | ['[', ']'] => some []
  | '[' :: rest => jsonDecElems (rest.length + 1) rest
  | _ => none

/-- The environment of a `StringSlice` cell with the default `","` separator. -/
def strEnv : SliceEnv String :=
  { slPfx := "sl:::1:::"
    sep := ","
    elemSet := fun s => some s
    elemToString := fun s => s
    enc := jsonEncStr
    dec := jsonDecStr }

/-- Claim C2: for every collection value cell constructed with a non-empty
declared default, the first successful `set()` call of a parse discards the
pre-existing default contents entirely before appending the newly parsed
elements, and every subsequent `set()` call in the same parse appends;
e.g. default `["9","2"]` with command line `--flag 10 --flag 20` yields
`["10","20"]`, never `["9","2","10","20"]`. -/
theorem slice_set_replaces_default_then_appends {T : Type} (env : SliceEnv T)
    (disable : Bool) (d : List T) (v1 v2 : String) (ts1 ts2 : List T)
    (hp1 : goHasPfx env.slPfx v1 = false)
    (hp2 : goHasPfx env.slPfx v2 = false)
    (ht1 : parsedTokens env disable v1 = some ts1)
    (ht2 : parsedTokens env disable v2 = some ts2) :
    (SliceBase.set env disable ⟨d, false⟩ v1).1.slice = ts1 ∧
      (SliceBase.set env disable
        (SliceBase.set env disable ⟨d, false⟩ v1).1 v2).1.slice = ts1 ++ ts2 := by
  have h1 : SliceBase.set env disable ⟨d, false⟩ v1 = (⟨ts1, true⟩, none) :=
    set_first env disable ⟨d, false⟩ v1 ts1 rfl hp1 ht1
  have h2 : SliceBase.set env disable (⟨ts1, true⟩ : SliceBase T) v2
      = (⟨ts1 ++ ts2, true⟩, none) :=
    set_subsequent env disable ⟨ts1, true⟩ v2 ts2 rfl hp2 ht2
  rw [h1]
  exact ⟨rfl, by rw [h2]⟩

/-- Witness for claim C2 at the spec's example: default `["9","2"]`, command
line values `10` then `20`, result `["10","20"]`. -/
theorem slice_set_replaces_default_then_appends_witness :
    (SliceBase.set strEnv false ⟨["9", "2"], false⟩ "10").1.slice = ["10"] ∧
      (SliceBase.set strEnv false
        (SliceBase.set strEnv false ⟨["9", "2"], false⟩ "10").1 "20").1.slice
        = ["10", "20"] :=
  slice_set_replaces_default_then_appends strEnv false ["9", "2"] "10" "20"
    ["10"] ["20"] (by decide) (by decide) (by decide) (by decide)

/-! ### Serialization round trip (claim C7) -/

theorem isPfxOf_self_append : ∀ (p t : List Char), isPfxOf p (p ++ t) = true := by
  intro p t
  induction p with
  | nil => rfl
  | cons a as ih => simp [isPfxOf, ih]

theorem drop_length_append : ∀ (a b : List Char), (a ++ b).drop a.length = b := by
  intro a b
  induction a with
  | nil => rfl
  | cons x xs ih => simp [ih]

theorem string_data_append (s t : String) : (s ++ t).data = s.data ++ t.data := by
  cases s; cases t; rfl

theorem goHasPfx_append (p t : String) : goHasPfx p (p ++ t) = true := by
  unfold goHasPfx
  rw [string_data_append]
  exact isPfxOf_self_append p.data t.data

theorem goDropPfx_append (p t : String) : goDropPfx p (p ++ t) = t := by
  unfold goDropPfx
  rw [string_data_append, drop_length_append]

/-- Claim C7: for every collection cell `c1` holding any sequence of valid
elements, calling `set` on a second cell `c2` with the string
`c1.serialize()` makes `c2`'s formatted contents equal to `c1`'s, regardless
of `c2`'s prior contents (serialize then set is a round trip that replaces
wholesale).  The hypothesis is the standard-library JSON contract that
`json.Unmarshal` inverts `json.Marshal` on the cell's contents. -/
theorem serialize_set_roundtrip {T : Type} (env : SliceEnv T) (disable : Bool)
    (c1 c2 : SliceBase T)
    (hdec : env.dec (env.enc c1.slice) = some c1.slice) :
    (SliceBase.set env disable c2 (SliceBase.serialize env c1)).1.slice = c1.slice ∧
      SliceBase.format env (SliceBase.set env disable c2 (SliceBase.serialize env c1)).1
        = SliceBase.format env c1 := by
  have hres : SliceBase.set env disable c2 (SliceBase.serialize env c1)
      = (⟨c1.slice, true⟩, none) := by
    unfold SliceBase.set SliceBase.serialize
    rw [goHasPfx_append, goDropPfx_append, hdec]
    simp
  rw [hres]
  exact ⟨rfl, rfl⟩

/-- Witness for claim C7: serializing a string cell holding `["a","b"]` and
feeding the result to a cell holding `["c","d"]` replaces the latter's
contents and formats. -/
theorem serialize_set_roundtrip_witness :
    (SliceBase.set strEnv false ⟨["c", "d"], false⟩
        (SliceBase.serialize strEnv ⟨["a", "b"], false⟩)).1.slice = ["a", "b"] ∧
      SliceBase.format strEnv (SliceBase.set strEnv false ⟨["c", "d"], false⟩
          (SliceBase.serialize strEnv ⟨["a", "b"], false⟩)).1
        = SliceBase.format strEnv ⟨["a", "b"], false⟩ :=
  serialize_set_roundtrip strEnv false ⟨["a", "b"], false⟩ ⟨["c", "d"], false⟩
    (by decide)

/-! ### Serialized-prefix detection vs separator disabling (claim C9) -/

/-- Claim C9: serialized-prefix detection in a collection cell's `set()` is
active regardless of the separator-disable setting: for every raw value
beginning with the reserved serialization prefix, `set()` deserializes it and
replaces the cell's contents wholesale even when splitting is disabled, and
the split-versus-single-token policy applies only to values without the
prefix (with splitting disabled the whole raw value is one token). -/
theorem serialized_pfx_always_detected {T : Type} (env : SliceEnv T)
    (d1 d2 : Bool) (c : SliceBase T) (value : String) :
    (goHasPfx env.slPfx value = true →
        SliceBase.set env d1 c value = SliceBase.set env d2 c value) ∧
      (∀ l, goHasPfx env.slPfx value = true →
        env.dec (goDropPfx env.slPfx value) = some l →
        SliceBase.set env d1 c value = (⟨l, true⟩, none)) ∧
      (goHasPfx env.slPfx value = false →
        SliceBase.set env d1 c value
          = setTokens env (if c.hasBeenSet then c else ⟨[], true⟩)
              (flagSplitMultiValues d1 env.sep value)) ∧
      flagSplitMultiValues true env.sep value = [value] := by
  refine ⟨fun hpfx => ?_, fun l hpfx hdec => ?_, fun hpfx => ?_, rfl⟩
  · unfold SliceBase.set
    rw [hpfx]
    simp
  · unfold SliceBase.set
    rw [hpfx, hdec]
    simp
  · unfold SliceBase.set
    rw [hpfx]
    simp

/-- Witness for claim C9: with splitting disabled, a prefixed value is still
deserialized and replaces the contents wholesale, identically to the
splitting-enabled behaviour. -/
theorem serialized_pfx_always_detected_witness :
    SliceBase.set strEnv true ⟨["x"], false⟩ "sl:::1:::[\"a\"]"
        = SliceBase.set strEnv false ⟨["x"], false⟩ "sl:::1:::[\"a\"]" ∧
      SliceBase.set strEnv true ⟨["x"], false⟩ "sl:::1:::[\"a\"]"
        = (⟨["a"], true⟩, none) :=
  ⟨(serialized_pfx_always_detected strEnv true false ⟨["x"], false⟩
      "sl:::1:::[\"a\"]").1 (by decide),
    (serialized_pfx_always_detected strEnv true false ⟨["x"], false⟩
      "sl:::1:::[\"a\"]").2.1 ["a"] (by decide) (by decide)⟩

/-! ### Value source precedence (claim C1) -/

/-- Modelled from the spec: `FlagBase.Apply` (flag_impl.go) is not under src/;
only its tests and callers are.  Per the spec, the ordered value sources are
probed before command-line parsing and the first value found — here `envVal`,
the first set environment variable — is resolved into the flag's cell so that
later command-line `set()` calls win; the static default is kept only when no
source produced a value, and a source value that fails to parse is a hard
error at startup. -/
def applySources {T : Type} (env : SliceEnv T) (disable : Bool)
    (defaultVal : List T) (envVal : Option String) : Option (SliceBase T) :=
  match envVal with
  | none => some ⟨defaultVal, false⟩
  | some s =>
    match SliceBase.set env disable ⟨defaultVal, false⟩ s with
    | (c, none) => some ⟨c.slice, false⟩
    | (_, some _) => none

/-- The command-line phase: each occurrence of the flag on the command line
triggers one `set()` call on the cell, stopping at the first parse error. -/
def parseCmdLine {T : Type} (env : SliceEnv T) (disable : Bool) :
    SliceBase T → List String → SliceBase T × Option String
  | c, [] => (c, none)
  | c, v :: rest =>
    match SliceBase.set env disable c v with
    | (c', none) => parseCmdLine env disable c' rest
    | (c', some e) => (c', some e)

/-- The resolved contents of a collection flag declared with static default
`defaultVal` and an environment source that yielded `envVal`, after the
command-line occurrences `occs` are parsed; `none` on any parse error. -/
def resolveSliceFlag {T : Type} (env : SliceEnv T) (disable : Bool)
    (defaultVal : List T) (envVal : Option String) (occs : List String) :
    Option (List T) :=
  (applySources env disable defaultVal envVal).bind (fun c =>
    match parseCmdLine env disable c occs with
    | (c', none) => some c'.slice
    | (_, some _) => none)

theorem parseCmdLine_append {T : Type} (env : SliceEnv T) (disable : Bool) :
    ∀ (occs : List String) (l : List T) (tss : List (List T)),
      (∀ w ∈ occs, goHasPfx env.slPfx w = false) →
      occs.mapM (parsedTokens env disable) = some tss →
      parseCmdLine env disable ⟨l, true⟩ occs = (⟨l ++ tss.flatten, true⟩, none) := by
  intro occs
  induction occs with
  | nil =>
    intro l tss _ h
    simp only [List.mapM_nil, pure, Option.some.injEq] at h
    subst h
    simp [parseCmdLine]
  | cons v vs ih =>
    intro l tss hpfx h
    rw [List.mapM_cons] at h
    cases hv : parsedTokens env disable v with
    | none => rw [hv] at h; simp at h
    | some ts =>
      rw [hv] at h
      cases hr : vs.mapM (parsedTokens env disable) with
      | none => rw [hr] at h; simp at h
      | some rest =>
        rw [hr] at h
        simp only [Option.bind_eq_bind, Option.some_bind, pure, Option.some.injEq] at h
        subst h
        have hset : SliceBase.set env disable ⟨l, true⟩ v = (⟨l ++ ts, true⟩, none) :=
          set_subsequent env disable ⟨l, true⟩ v ts rfl
            (hpfx v (List.mem_cons_self v vs)) hv
        simp only [parseCmdLine, hset]
        rw [ih (l ++ ts) rest (fun w hw => hpfx w (List.mem_cons_of_mem v hw)) hr]
        simp

/-- Claim C1: for every flag declared with an environment-variable source and
a static default value: if a command-line occurrence of the flag is present,
the resolved value reflects only the command line; otherwise, if the
environment variable is set, the resolved value reflects the environment; the
static default is used only when neither the sources nor the command line
supplied a value. -/
theorem slice_flag_source_precedence {T : Type} (env : SliceEnv T) (disable : Bool) :
    (∀ (d : List T) (envVal : Option String) (v : String) (vs : List String)
        (tss : List (List T)),
      (∀ w ∈ v :: vs, goHasPfx env.slPfx w = false) →
      (envVal = none ∨ ∃ s ts, envVal = some s ∧ goHasPfx env.slPfx s = false ∧
        parsedTokens env disable s = some ts) →
      (v :: vs).mapM (parsedTokens env disable) = some tss →
      resolveSliceFlag env disable d envVal (v :: vs) = some tss.flatten) ∧
    (∀ (d : List T) (s : String) (ts : List T),
      goHasPfx env.slPfx s = false → parsedTokens env disable s = some ts →
      resolveSliceFlag env disable d (some s) [] = some ts) ∧
    (∀ d : List T, resolveSliceFlag env disable d none [] = some d) := by
  have happly : ∀ (d : List T) (envVal : Option String),
      (envVal = none ∨ ∃ s ts, envVal = some s ∧ goHasPfx env.slPfx s = false ∧
        parsedTokens env disable s = some ts) →
      ∃ x, applySources env disable d envVal = some ⟨x, false⟩ := by
    intro d envVal h
    rcases h with h | ⟨s, ts, hs, hpfx, htok⟩
    · exact ⟨d, by rw [h]; rfl⟩
    · refine ⟨ts, ?_⟩
      subst hs
      simp only [applySources, set_first env disable ⟨d, false⟩ s ts rfl hpfx htok]
  have hmain : ∀ (x : List T) (v : String) (vs : List String) (tss : List (List T)),
      (∀ w ∈ v :: vs, goHasPfx env.slPfx w = false) →
      (v :: vs).mapM (parsedTokens env disable) = some tss →
      parseCmdLine env disable ⟨x, false⟩ (v :: vs) = (⟨tss.flatten, true⟩, none) := by
    intro x v vs tss hpfx h
    rw [List.mapM_cons] at h
    cases hv : parsedTokens env disable v with
    | none => rw [hv] at h; simp at h
    | some ts =>
      rw [hv] at h
      cases hr : vs.mapM (parsedTokens env disable) with
      | none => rw [hr] at h; simp at h
      | some rest =>
        rw [hr] at h
        simp only [Option.bind_eq_bind, Option.some_bind, pure, Option.some.injEq] at h
        subst h
        have hset : SliceBase.set env disable ⟨x, false⟩ v = (⟨ts, true⟩, none) :=
          set_first env disable ⟨x, false⟩ v ts rfl
            (hpfx v (List.mem_cons_self v vs)) hv
        simp only [parseCmdLine, hset]
        rw [parseCmdLine_append env disable vs ts rest
          (fun w hw => hpfx w (List.mem_cons_of_mem v hw)) hr]
        simp
  refine ⟨fun d envVal v vs tss hpfx henv htss => ?_, fun d s ts hpfx htok => ?_, fun d => rfl⟩
  · obtain ⟨x, hx⟩ := happly d envVal henv
    unfold resolveSliceFlag
    rw [hx, Option.some_bind, hmain x v vs tss hpfx htss]
  · simp only [resolveSliceFlag, applySources,
      set_first env disable ⟨d, false⟩ s ts rfl hpfx htok]
    rfl

/-- Witness for claim C1 at the spec's example: default `["1","2","5"]`,
environment value `"20"`: with no command-line occurrence the result reflects
the environment; with occurrences `"10"` and `"20"` it reflects only the
command line; with no environment value and no occurrence it is the default. -/
theorem slice_flag_source_precedence_witness :
    resolveSliceFlag strEnv false ["1", "2", "5"] (some "20") ["10", "20"]
        = some ["10", "20"] ∧
      resolveSliceFlag strEnv false ["1", "2", "5"] (some "20") [] = some ["20"] ∧
      resolveSliceFlag strEnv false ["1", "2", "5"] none [] = some ["1", "2", "5"] :=
  ⟨(slice_flag_source_precedence strEnv false).1 ["1", "2", "5"] (some "20")
      "10" ["20"] [["10"], ["20"]] (by decide)
      (Or.inr ⟨"20", ["20"], rfl, by decide, by decide⟩) (by decide),
    (slice_flag_source_precedence strEnv false).2.1 ["1", "2", "5"] "20" ["20"]
      (by decide) (by decide),
    (slice_flag_source_precedence strEnv false).2.2 ["1", "2", "5"]⟩

/-! ## Persistent flag inheritance (claim C3)

Embedding of the persistent-flag loop of `Command.parseFlags`
(src/command.go lines 613-661).  A flag is reduced to what that loop
inspects: its name list (`Names()`) and its persistent marker
(`PersistentFlag.IsPersistent`).  The command's `flag.FlagSet` is reduced to
the list of names registered in it, which `Apply` extends; `appliedFlags`
starts as the command's own flags (`newFlagSet`, lines 539-547). -/

/-- A flag as seen by the persistent-flag loop. -/
structure MFlag where
  names : List String
  persistent : Bool
deriving Repr, DecidableEq

/-- The names a list of flags registers in a `flag.FlagSet`. -/
def flagNamesOf : List MFlag → List String
  | [] => []
  | fl :: rest => fl.names ++ flagNamesOf rest

/-- The inner loop of `parseFlags` over one ancestor's flags: a persistent
flag none of whose names is already registered is applied (appended to
`appliedFlags`, its names registered); all other flags are skipped.  The state
is `(appliedFlags, registered names)`. -/
def applyAncestorFlags (st : List MFlag × List String) : List MFlag → List MFlag × List String
  | [] => st
  | fl :: rest =>
    if fl.persistent && !(fl.names.any (fun n => st.2.contains n)) then
      applyAncestorFlags (st.1 ++ [fl], st.2 ++ fl.names) rest
    else
      applyAncestorFlags st rest

/-- The outer loop of `parseFlags` over the ancestors, nearest first. -/
def applyLineage (st : List MFlag × List String) : List (List MFlag) → List MFlag × List String
  | [] => st
  | anc :: rest => applyLineage (applyAncestorFlags st anc) rest

/-- The command's effective applied flags after the persistent-flag phase of
`parseFlags`: its own flags followed by the inherited ancestor flags. -/
def parseFlagsApplied (own : List MFlag) (ancestors : List (List MFlag)) : List MFlag :=
  (applyLineage (own, flagNamesOf own) ancestors).1

/-- The spec's description of the inherited flags: walking the ancestor flags
nearest first, every flag marked persistent whose names are not already
present in the (growing) flag set is taken. -/
def inheritedPersistent (present : List String) : List MFlag → List MFlag
  | [] => []
  | fl :: rest =>
    if fl.persistent && !(fl.names.any (fun n => present.contains n)) then
      fl :: inheritedPersistent (present ++ fl.names) rest
    else
      inheritedPersistent present rest

theorem flagNamesOf_append (a b : List MFlag) :
    flagNamesOf (a ++ b) = flagNamesOf a ++ flagNamesOf b := by
  induction a with
  | nil => simp [flagNamesOf]
  | cons fl rest ih => simp [flagNamesOf, ih]

theorem applyAncestorFlags_spec :
    ∀ (flags : List MFlag) (applied : List MFlag) (present : List String),
      applyAncestorFlags (applied, present) flags
        = (applied ++ inheritedPersistent present flags,
            present ++ flagNamesOf (inheritedPersistent present flags)) := by
  intro flags
  induction flags with
  | nil => intro applied present; simp [applyAncestorFlags, inheritedPersistent, flagNamesOf]
  | cons fl rest ih =>
    intro applied present
    by_cases hc : (fl.persistent && !(fl.names.any (fun n => present.contains n))) = true
    · simp only [applyAncestorFlags, inheritedPersistent, hc, if_true]
      rw [ih]
      simp [flagNamesOf, List.append_assoc]
    · rw [applyAncestorFlags, inheritedPersistent, if_neg hc, if_neg hc, ih]

theorem inheritedPersistent_append :
    ∀ (xs ys : List MFlag) (present : List String),
      inheritedPersistent present (xs ++ ys)
        = inheritedPersistent present xs
            ++ inheritedPersistent
                (present ++ flagNamesOf (inheritedPersistent present xs)) ys := by
  intro xs
  induction xs with
  | nil => intro ys present; simp [inheritedPersistent, flagNamesOf]
  | cons fl rest ih =>
    intro ys present
    by_cases hc : (fl.persistent && !(fl.names.any (fun n => present.contains n))) = true
    · rw [List.cons_append, inheritedPersistent, if_pos hc, inheritedPersistent,
        if_pos hc, ih]
      simp [flagNamesOf, List.append_assoc]
    · rw [List.cons_append, inheritedPersistent, if_neg hc, inheritedPersistent,
        if_neg hc]
      exact ih ys present

theorem applyLineage_spec :
    ∀ (ancestors : List (List MFlag)) (applied : List MFlag) (present : List String),
      applyLineage (applied, present) ancestors
        = (applied ++ inheritedPersistent present ancestors.flatten,
            present ++ flagNamesOf (inheritedPersistent present ancestors.flatten)) := by
  intro ancestors
  induction ancestors with
  | nil => intro applied present; simp [applyLineage, inheritedPersistent, flagNamesOf]
  | cons anc rest ih =>
    intro applied present
    rw [applyLineage, applyAncestorFlags_spec, ih, List.flatten_cons,
      inheritedPersistent_append]
    simp [flagNamesOf_append, List.append_assoc]

theorem inheritedPersistent_mem :
    ∀ (flags : List MFlag) (present : List String) (fl : MFlag),
      fl ∈ inheritedPersistent present flags →
      fl.persistent = true ∧ fl ∈ flags ∧
        ∀ n ∈ fl.names, present.contains n = false := by
  intro flags
  induction flags with
  | nil => intro present fl h; simp [inheritedPersistent] at h
  | cons hd rest ih =>
    intro present fl h
    by_cases hc : (hd.persistent && !(hd.names.any (fun n => present.contains n))) = true
    · rw [inheritedPersistent, if_pos hc] at h
      rcases List.mem_cons.mp h with hfl | hfl
      · subst hfl
        refine ⟨Bool.and_elim_left hc, List.mem_cons_self _ _, fun n hn => ?_⟩
        cases hx : present.contains n
        · rfl
        · exfalso
          have hany : fl.names.any (fun n => present.contains n) = true :=
            List.any_eq_true.mpr ⟨n, hn, hx⟩
          have := Bool.and_elim_right hc
          rw [hany] at this
          simp at this
      · obtain ⟨h1, h2, h3⟩ := ih (present ++ hd.names) fl hfl
        refine ⟨h1, List.mem_cons_of_mem _ h2, fun n hn => ?_⟩
        have := h3 n hn
        cases hx : present.contains n
        · rfl
        · exfalso
          have hmem : n ∈ present := by simpa using hx
          have : (present ++ hd.names).contains n = true := by
            simp [List.mem_append, hmem]
          rw [this] at *
          simp_all
    · rw [inheritedPersistent, if_neg hc] at h
      obtain ⟨h1, h2, h3⟩ := ih present fl h
      exact ⟨h1, List.mem_cons_of_mem _ h2, h3⟩

/-- Claim C3: at parse time, a command's effective flag set equals its own
declared flags plus every ancestor flag marked persistent whose name is not
already present by name in the command's (growing) flag set; a
locally-declared flag of the same name shadows the ancestor's persistent
flag, and the shadowed persistent flag is not applied into the child's parse
context (every inherited flag is persistent, comes from an ancestor, and none
of its names collides with a local flag name). -/
theorem persistent_flag_inheritance (own : List MFlag) (ancestors : List (List MFlag)) :
    parseFlagsApplied own ancestors
      = own ++ inheritedPersistent (flagNamesOf own) ancestors.flatten ∧
    ∀ fl ∈ inheritedPersistent (flagNamesOf own) ancestors.flatten,
      fl.persistent = true ∧ fl ∈ ancestors.flatten ∧
        ∀ n ∈ fl.names, (flagNamesOf own).contains n = false := by
  constructor
  · unfold parseFlagsApplied
    rw [applyLineage_spec]
  · intro fl h
    exact inheritedPersistent_mem ancestors.flatten (flagNamesOf own) fl h

/-- Example command for the claim C3 witness: one local flag `local`/`l`; the
parent declares a persistent `local` (shadowed locally), a persistent
`verbose` and a non-persistent `other`; the grandparent declares a persistent
`verbose` (shadowed by the parent's) and a persistent `root`. -/
def pfOwn : List MFlag := [⟨["local", "l"], false⟩]

/-- Ancestor flag lists (nearest first) for the claim C3 witness. -/
def pfAncestors : List (List MFlag) :=
  [[⟨["local", "x"], true⟩, ⟨["verbose", "v"], true⟩, ⟨["other"], false⟩],
    [⟨["verbose"], true⟩, ⟨["root"], true⟩]]

/-- Witness for claim C3: the effective flag set is the local flag plus the
parent's `verbose` and the grandparent's `root`; the parent's persistent
`local` is shadowed by the local flag and not applied, and the grandparent's
`verbose` is shadowed by the parent's. -/
theorem persistent_flag_inheritance_witness :
    parseFlagsApplied pfOwn pfAncestors
        = pfOwn ++ [⟨["verbose", "v"], true⟩, ⟨["root"], true⟩] ∧
      (⟨["local", "x"], true⟩ : MFlag) ∉ parseFlagsApplied pfOwn pfAncestors ∧
      (⟨["verbose"], true⟩ : MFlag) ∉ parseFlagsApplied pfOwn pfAncestors := by
  refine ⟨?_, by decide, by decide⟩
  rw [(persistent_flag_inheritance pfOwn pfAncestors).1]
  decide

/-! ## Required-flag check (claim C5)

Embedding of `Command.checkRequiredFlags` (src/command.go lines 817-850).  A
flag is reduced to what the check inspects: its name list and its required
marker; `cmd.IsSet` is abstracted as the predicate `isSet`. -/

/-- A flag as seen by the required-flag check. -/
structure RFlag where
  names : List String
  required : Bool
deriving Repr, DecidableEq

/-- The inner loop over one flag's names: the final `(flagPresent, flagName)`
pair, where `flagPresent` becomes true if any name is set and `flagName`
follows the loop variable (ending at the last name). -/
def requiredScan (isSet : String → Bool) (f : RFlag) : Bool × String :=
  f.names.foldl (fun st key => (st.1 || isSet (goTrim key), key)) (false, "")

/-- One step of the outer loop of `checkRequiredFlags`: a required flag that
is not present and has a non-empty final name is added to `missingFlags`. -/
def checkRequiredStep (isSet : String → Bool) (acc : List String) (f : RFlag) :
    List String :=
  if f.required then
    if !(requiredScan isSet f).1 && (requiredScan isSet f).2 != "" then
      acc ++ [(requiredScan isSet f).2]
    else acc
  else acc

/-- Embedding of `Command.checkRequiredFlags`: `none` models the nil error,
`some missingFlags` models `&errRequiredFlags{missingFlags}`. -/
def checkRequiredFlags (isSet : String → Bool) (flags : List RFlag) :
    Option (List String) :=
  let missingFlags := flags.foldl (checkRequiredStep isSet) []
  if missingFlags.length != 0 then some missingFlags else none

/-- Whether any of the flag's names reports as set. -/
def flagSatisfied (isSet : String → Bool) (f : RFlag) : Bool :=
  f.names.any (fun key => isSet (goTrim key))

/-- The name under which a missing flag is reported: the last of its names. -/
def lastNameOf (f : RFlag) : String := f.names.getLastD ""

theorem requiredScan_fst (isSet : String → Bool) (f : RFlag) :
    (requiredScan isSet f).1 = flagSatisfied isSet f := by
  unfold requiredScan flagSatisfied
  have aux : ∀ (l : List String) (b : Bool) (s : String),
      (l.foldl (fun st key => (st.1 || isSet (goTrim key), key)) (b, s)).1
        = (b || l.any (fun key => isSet (goTrim key))) := by
    intro l
    induction l with
    | nil => intro b s; simp
    | cons k ks ih => intro b s; simp [List.foldl_cons, ih, Bool.or_assoc]
  simpa using aux f.names false ""

theorem requiredScan_snd (isSet : String → Bool) (f : RFlag) :
    (requiredScan isSet f).2 = lastNameOf f := by
  unfold requiredScan lastNameOf
  have aux : ∀ (l : List String) (b : Bool) (s : String),
      (l.foldl (fun st key => (st.1 || isSet (goTrim key), key)) (b, s)).2
        = l.getLastD s := by
    intro l
    induction l with
    | nil => intro b s; rfl
    | cons k ks ih => intro b s; rw [List.foldl_cons, ih, List.getLastD_cons]
  exact aux f.names false ""

theorem missing_foldl (isSet : String → Bool) :
    ∀ (flags : List RFlag) (acc : List String),
      (∀ f ∈ flags, f.required = true → lastNameOf f ≠ "") →
      flags.foldl (checkRequiredStep isSet) acc
        = acc ++ (flags.filter
            (fun f => f.required && !flagSatisfied isSet f)).map lastNameOf := by
  intro flags
  induction flags with
  | nil => intro acc _; simp
  | cons f fs ih =>
    intro acc hnm
    have hfs : ∀ g ∈ fs, g.required = true → lastNameOf g ≠ "" :=
      fun g hg => hnm g (List.mem_cons_of_mem _ hg)
    rw [List.foldl_cons]
    cases hreq : f.required with
    | false =>
      have hstep : checkRequiredStep isSet acc f = acc := by
        unfold checkRequiredStep
        rw [hreq]
        simp
      rw [hstep, ih acc hfs]
      simp [List.filter_cons, hreq]
    | true =>
      cases hsat : flagSatisfied isSet f with
      | true =>
        have hstep : checkRequiredStep isSet acc f = acc := by
          unfold checkRequiredStep
          rw [hreq, requiredScan_fst, hsat]
          simp
        rw [hstep, ih acc hfs]
        simp [List.filter_cons, hreq, hsat]
      | false =>
        have hne : lastNameOf f ≠ "" := hnm f (List.mem_cons_self _ _) hreq
        have hbeq : (lastNameOf f == "") = false := by
          cases hx : lastNameOf f == ""
          · rfl
          · exact absurd (by simpa using hx) hne
        have hstep : checkRequiredStep isSet acc f = acc ++ [lastNameOf f] := by
          unfold checkRequiredStep
          rw [hreq, requiredScan_fst, hsat, requiredScan_snd]
          simp [hbeq]
          exact hne
        rw [hstep, ih (acc ++ [lastNameOf f]) hfs]
        simp [List.filter_cons, hreq, hsat]

theorem lengthGuard_none (m : List String) :
    (if m.length != 0 then some m else none) = none ↔ m = [] := by
  cases m <;> simp

theorem lengthGuard_some (m l : List String)
    (h : (if m.length != 0 then some m else none) = some l) : l = m := by
  cases m with
  | nil => simp at h
  | cons x xs =>
    simp only [List.length_cons, Nat.add_one_ne_zero, bne_iff_ne, ne_eq,
      not_false_eq_true, if_true, Option.some.injEq] at h
    exact h.symm

theorem not_missing_iff (isSet : String → Bool) (f : RFlag) :
    ¬((f.required && !flagSatisfied isSet f) = true)
      ↔ (f.required = true → flagSatisfied isSet f = true) := by
  cases hreq : f.required <;> cases hsat : flagSatisfied isSet f <;> simp

/-- Claim C5: the required-flag check returns an error if and only if at
least one required flag is unset, and that single error aggregates the names
of all missing required flags of the command (one reported name per missing
flag), not only the first one encountered in declaration order.  The
hypothesis rules out the degenerate flag whose reported name is empty. -/
theorem required_flags_aggregated (isSet : String → Bool) (flags : List RFlag)
    (hnm : ∀ f ∈ flags, f.required = true → lastNameOf f ≠ "") :
    (checkRequiredFlags isSet flags = none ↔
      ∀ f ∈ flags, f.required = true → flagSatisfied isSet f = true) ∧
    ∀ l, checkRequiredFlags isSet flags = some l →
      l = (flags.filter
            (fun f => f.required && !flagSatisfied isSet f)).map lastNameOf := by
  have hmiss : flags.foldl (checkRequiredStep isSet) []
      = (flags.filter (fun f => f.required && !flagSatisfied isSet f)).map lastNameOf := by
    simpa using missing_foldl isSet flags [] hnm
  constructor
  · unfold checkRequiredFlags
    rw [hmiss, lengthGuard_none]
    constructor
    · intro hmap f hf hreq
      have hfil : flags.filter (fun f => f.required && !flagSatisfied isSet f) = [] :=
        List.map_eq_nil_iff.mp hmap
      have hnp := List.filter_eq_nil_iff.mp hfil f hf
      exact (not_missing_iff isSet f).mp hnp hreq
    · intro hall
      apply List.map_eq_nil_iff.mpr
      apply List.filter_eq_nil_iff.mpr
      intro f hf
      exact (not_missing_iff isSet f).mpr (hall f hf)
  · intro l hl
    unfold checkRequiredFlags at hl
    rw [hmiss] at hl
    exact lengthGuard_some _ _ hl

/-- The flags used by the claim C5 witness. -/
def rf0 : List RFlag :=
  [⟨["alpha"], true⟩, ⟨["beta"], true⟩, ⟨["gamma", "g"], true⟩]

/-- Witness for claim C5: with required flags `alpha`, `beta` (set) and
`gamma`/`g`, both unset flags are aggregated in one error; with everything
set the check returns nil. -/
theorem required_flags_aggregated_witness :
    checkRequiredFlags (fun n => n == "beta") rf0 = some ["alpha", "g"] ∧
      checkRequiredFlags (fun _ => true) rf0 = none := by
  constructor
  · cases hx : checkRequiredFlags (fun n => n == "beta") rf0 with
    | none =>
      exact absurd ((required_flags_aggregated (fun n => n == "beta") rf0
        (by decide)).1.mp hx ⟨["alpha"], true⟩ (by decide) rfl) (by decide)
    | some l =>
      have hl := (required_flags_aggregated (fun n => n == "beta") rf0
        (by decide)).2 l hx
      have hv : ((rf0.filter
          (fun f => f.required && !flagSatisfied (fun n => n == "beta") f)).map
            lastNameOf) = ["alpha", "g"] := by decide
      rw [hl, hv]
  · exact (required_flags_aggregated (fun _ => true) rf0
      (by decide)).1.mpr (by decide)

/-! ## Command resolution with a default command (claims C4, C10)

Embedding of the sub-command resolution step of `Command.Run`
(src/command.go lines 461-512) for a present first positional token, together
with `Command.Command` (lines 157-165) and `Command.argsWithDefaultCommand`
(lines 764-773).  A command node is reduced to what this step inspects: name,
aliases, children, the configured `DefaultCommand` name, and the flag names
visible through `cmd.FlagNames()`.  `SuggestCommandFunc` is nil. -/

/-- A command node as seen by the resolution step. -/
inductive Cmd where
  | mk (name : String) (aliases : List String) (commands : List Cmd)
      (defaultCommand : String) (flagNames : List String)
deriving Repr

/-- The command's name. -/
def Cmd.name : Cmd → String
  | .mk n _ _ _ _ => n

/-- The command's aliases. -/
def Cmd.aliases : Cmd → List String
  | .mk _ a _ _ _ => a

/-- The command's children. -/
def Cmd.commands : Cmd → List Cmd
  | .mk _ _ cs _ _ => cs

/-- The command's configured `DefaultCommand` name. -/
def Cmd.defaultCommand : Cmd → String
  | .mk _ _ _ d _ => d

/-- The flag names `cmd.FlagNames()` reports for the command. -/
def Cmd.flagNames : Cmd → List String
  | .mk _ _ _ _ f => f

/-- Embedding of `Command.HasName` (command.go lines 686-694): the name or
any alias matches. -/
def Cmd.hasName (c : Cmd) (nm : String) : Bool :=
  (c.name :: c.aliases).contains nm

/-- Embedding of `Command.Command` (command.go lines 157-165): the first
child matching by name or alias; `none` models the nil pointer returned when
no child matches. -/
def Cmd.commandLookup (c : Cmd) (nm : String) : Option Cmd :=
  c.commands.find? (fun sub => sub.hasName nm)

/-- Embedding of `Command.argsWithDefaultCommand` (command.go lines
764-773). -/
def argsWithDefaultCommand (cmd : Cmd) (oldArgs : List String) : List String :=
  if cmd.defaultCommand != "" then cmd.defaultCommand :: oldArgs else oldArgs

/-- Result of the resolution step: either the resolved sub-command (if any)
together with the number of times the default-command name was prepended with
effect, or the nil-pointer dereference that `Command.Run` performs at
`len(dc.Commands)` when `DefaultCommand` names no child. -/
inductive ResolveOutcome where
  | ok (sub : Option Cmd) (fallbacks : Nat)
  | nilDeref
deriving Repr

/-- The fallback block of `Command.Run` (command.go lines 494-499): when the
condition holds, the default-command name is prepended to the arguments and,
exactly when that changed the argument list (`reflect.DeepEqual`), the new
first argument is looked up once. -/
def resolveFallback (cmd : Cmd) (nm : String) (rest : List String) (cond : Bool) :
    ResolveOutcome :=
  if cond then
    let argsWithDefault := argsWithDefaultCommand cmd (nm :: rest)
    if argsWithDefault != nm :: rest then
      .ok (cmd.commandLookup (argsWithDefault.headD "")) 1
    else .ok none 0
  else .ok none 0

/-- Embedding of the sub-command resolution of `Command.Run` (command.go
lines 461-507): look the first positional token up among the children; on
failure, consult the default-command fallback, dereferencing the looked-up
default command for its child list exactly as the Go code does. -/
def resolveSubCommand (cmd : Cmd) (nm : String) (rest : List String) : ResolveOutcome :=
  match cmd.commandLookup nm with
  | some subCmd => .ok (some subCmd) 0
  | none =>
    let hasDefault := cmd.defaultCommand != ""
    let isFlagName := cmd.flagNames.contains nm
    if hasDefault then
      match cmd.commandLookup cmd.defaultCommand with
      | none => .nilDeref
      | some dc =>
        let defaultHasSubcommands := !dc.commands.isEmpty
        let isDefaultSubcommand :=
          dc.commands.any (fun s => (s.name :: s.aliases).contains nm)
        resolveFallback cmd nm rest
          (isFlagName || (hasDefault && (defaultHasSubcommands && isDefaultSubcommand)))
    else
      resolveFallback cmd nm rest (isFlagName || (hasDefault && (false && false)))

theorem resolveFallback_le_one (cmd : Cmd) (nm : String) (rest : List String)
    (cond : Bool) (sub : Option Cmd) (k : Nat)
    (h : resolveFallback cmd nm rest cond = .ok sub k) : k ≤ 1 := by
  unfold resolveFallback at h
  split at h
  · simp only at h
    split at h
    · simp only [ResolveOutcome.ok.injEq] at h
      omega
    · simp only [ResolveOutcome.ok.injEq] at h
      omega
  · simp only [ResolveOutcome.ok.injEq] at h
    omega

/-- Claim C4: when a command has a configured default command and its first
positional token matches no child command name or alias, but the token is a
known flag name or names a child of the default command, the default
command's name is prepended to the argument list and command resolution is
retried exactly once (resolving to the default command); the fallback is
never applied a second time to the same invocation — across all inputs the
prepend count of a completed resolution is at most 1. -/
theorem default_command_fallback_once (cmd : Cmd) (nm : String) (rest : List String) :
    (∀ (sub : Option Cmd) (k : Nat),
      resolveSubCommand cmd nm rest = .ok sub k → k ≤ 1) ∧
    (∀ dc : Cmd, cmd.commandLookup nm = none →
      cmd.defaultCommand ≠ "" →
      cmd.commandLookup cmd.defaultCommand = some dc →
      (cmd.flagNames.contains nm = true ∨
        dc.commands.any (fun s => (s.name :: s.aliases).contains nm) = true) →
      resolveSubCommand cmd nm rest = .ok (some dc) 1) := by
  constructor
  · intro sub k h
    unfold resolveSubCommand at h
    cases hlk : cmd.commandLookup nm with
    | some sc =>
      rw [hlk] at h
      simp only [ResolveOutcome.ok.injEq] at h
      omega
    | none =>
      rw [hlk] at h
      simp only at h
      split at h
      · cases hdc : cmd.commandLookup cmd.defaultCommand with
        | none => rw [hdc] at h; exact absurd h (by simp)
        | some dc =>
          rw [hdc] at h
          exact resolveFallback_le_one cmd nm rest _ sub k h
      · exact resolveFallback_le_one cmd nm rest _ sub k h
  · intro dc hlk hne hdc hcond
    have hbne : (cmd.defaultCommand != "") = true := bne_iff_ne.mpr hne
    have hconds : (cmd.flagNames.contains nm
        || (cmd.defaultCommand != ""
            && (!dc.commands.isEmpty
                && dc.commands.any (fun s => (s.name :: s.aliases).contains nm)))) = true := by
      rcases hcond with hfl | hsub
      · rw [hfl]; rfl
      · have hnonempty : dc.commands.isEmpty = false := by
          cases hc : dc.commands with
          | nil => rw [hc] at hsub; simp at hsub
          | cons x xs => rfl
        rw [hbne, hnonempty, hsub]
        simp
    have hargs : argsWithDefaultCommand cmd (nm :: rest)
        = cmd.defaultCommand :: nm :: rest := by
      unfold argsWithDefaultCommand
      rw [hbne]
      rfl
    have hdiff : (cmd.defaultCommand :: nm :: rest != nm :: rest) = true := by
      apply bne_iff_ne.mpr
      intro hcontra
      have := congrArg List.length hcontra
      simp at this
    unfold resolveSubCommand
    rw [hlk]
    simp only
    rw [if_pos hbne, hdc]
    simp only
    unfold resolveFallback
    rw [if_pos hconds, hargs, if_pos hdiff]
    simp only [List.headD_cons]
    rw [hdc]

/-- A command tree for the claim C4 witness: the root has children `help` and
`sub` (alias `s`, child `inner`), `DefaultCommand` `sub`, and a flag named
`flagx`. -/
def c4sub : Cmd := .mk "sub" ["s"] [.mk "inner" [] [] "" []] "" []

/-- The root command of the claim C4 witness. -/
def c4cmd : Cmd := .mk "root" [] [.mk "help" [] [] "" [], c4sub] "sub" ["flagx"]

/-- Witness for claim C4: the token `flagx` (a flag name) and the token
`inner` (a child of the default command) both trigger exactly one fallback to
the default command `sub`. -/
theorem default_command_fallback_once_witness :
    resolveSubCommand c4cmd "flagx" [] = .ok (some c4sub) 1 ∧
      resolveSubCommand c4cmd "inner" [] = .ok (some c4sub) 1 :=
  ⟨(default_command_fallback_once c4cmd "flagx" []).2 c4sub rfl
      (by decide) rfl (Or.inl (by decide)),
    (default_command_fallback_once c4cmd "inner" []).2 c4sub rfl
      (by decide) rfl (Or.inr (by decide))⟩

/-- The command of the claim C10 analysis: `DefaultCommand` is `missing`,
which names no child (the built-in `help` child is present, as after
`setupDefaults`). -/
def c10cmd : Cmd := .mk "root" [] [.mk "help" [] [] "" []] "missing" []

/-- Claim C10 evaluated on the code: with a configured `DefaultCommand` that
names no existing child and a first positional token matching no child,
`Command.Run` evaluates `len(dc.Commands)` with `dc = nil` — a nil-pointer
dereference, contradicting the claim that the lookup yields a non-nil command
before its child list is accessed. -/
theorem default_command_nil_deref :
    resolveSubCommand c10cmd "tok" [] = .nilDeref := rfl

/-! ## Leaf dispatch hook ordering (claim C6)

Embedding of the leaf tail of `Command.Run` (src/command.go lines 410-525)
for a dispatch that reaches the hook phase: help/version shortcuts not taken,
shell completion disabled, and no sub-command resolved.  Hooks are abstracted
by their presence and error results; `handleExitCoder` returns its error
argument unchanged (lines 750-762); `newMultiError` is modelled by listing
the collected error messages in order. -/

/-- The observable invocations of a leaf dispatch. -/
inductive Ev where
  | beforeHook
  | flagActions
  | action
  | afterHook
deriving Repr, DecidableEq

/-- Hook configuration and outcomes of one leaf dispatch. -/
structure RunCfg where
  hasAfter : Bool
  afterErr : Option String
  requiredErr : Option String
  mutexErr : Option String
  hasBefore : Bool
  beforeErr : Option String
  flagActionsErr : Option String
  actionErr : Option String

/-- The flag-action and action phase (command.go lines 455-525): flag actions
run, then the leaf action; an action error becomes the pending `deferErr`. -/
def runLeafPhase2 (cfg : RunCfg) (evs : List Ev) : List Ev × Option String :=
  match cfg.flagActionsErr with
  | some e => (evs ++ [.flagActions], some e)
  | none =>
    match cfg.actionErr with
    | some e => (evs ++ [.flagActions, .action], some e)
    | none => (evs ++ [.flagActions, .action], none)

/-- The body of `Run` after the `After` hook has been deferred (command.go
lines 435-525): the required-flag check, the mutually-exclusive check and the
`Before` hook each short-circuit with their error; otherwise flag actions and
the action run.  Returns the invoked events and the pending `deferErr`. -/
def runLeafCore (cfg : RunCfg) : List Ev × Option String :=
  match cfg.requiredErr with
  | some e => ([], some e)
  | none =>
    match cfg.mutexErr with
    | some e => ([], some e)
    | none =>
      if cfg.hasBefore then
        match cfg.beforeErr with
        | some e => ([.beforeHook], some e)
        | none => runLeafPhase2 cfg [.beforeHook]
      else runLeafPhase2 cfg []

/-- The full leaf dispatch (command.go lines 421-525): the `After` hook is
registered with `defer` at lines 421-433, before the required-flag check and
the `Before` hook, so it executes on every return path that follows; its
error is combined with the pending `deferErr` (`newMultiError`).  The final
errors are returned as a list (empty = nil error). -/
def runLeaf (cfg : RunCfg) : List Ev × List String :=
  let core := runLeafCore cfg
  if cfg.hasAfter then
    match cfg.afterErr with
    | some ae => (core.1 ++ [.afterHook], core.2.toList ++ [ae])
    | none => (core.1 ++ [.afterHook], core.2.toList)
  else (core.1, core.2.toList)

/-- The dispatch used to refute claim C6 as stated: `Before` and `After` are
both configured and `Before` fails. -/
def cfgBeforeFails : RunCfg :=
  ⟨true, none, none, none, true, some "before failed", none, none⟩

/-- Counterexample to claim C6 as stated: when the `Before` hook fails, the
action indeed does not run, but the deferred `After` hook still runs — the
claim that after-hooks do not run in that case is false on the code. -/
theorem after_runs_on_before_failure :
    (runLeaf cfgBeforeFails).1 = [Ev.beforeHook, Ev.afterHook] ∧
      Ev.action ∉ (runLeaf cfgBeforeFails).1 ∧
      (runLeaf cfgBeforeFails).2 = ["before failed"] := by
  decide

/-- Claim C6 (amended): in a leaf dispatch, the `After` hook runs even when
the action returns an error and both errors are surfaced; a failure of the
`Before` hook short-circuits before the action runs — but the deferred
`After` hook still runs in that case as well, and `Before`'s error is
surfaced alongside any `After` error. -/
theorem after_hook_always_runs (cfg : RunCfg)
    (hreq : cfg.requiredErr = none) (hmut : cfg.mutexErr = none)
    (hfa : cfg.flagActionsErr = none) (hafter : cfg.hasAfter = true) :
    ((cfg.hasBefore = false ∨ cfg.beforeErr = none) →
      (runLeaf cfg).1 = (if cfg.hasBefore then [Ev.beforeHook] else [])
          ++ [Ev.flagActions, Ev.action, Ev.afterHook] ∧
      (runLeaf cfg).2 = cfg.actionErr.toList ++ cfg.afterErr.toList) ∧
    (∀ e, cfg.hasBefore = true → cfg.beforeErr = some e →
      Ev.action ∉ (runLeaf cfg).1 ∧ Ev.afterHook ∈ (runLeaf cfg).1 ∧
      (runLeaf cfg).2 = e :: cfg.afterErr.toList) := by
  constructor
  · intro hb
    cases hhb : cfg.hasBefore with
    | false =>
      unfold runLeaf runLeafCore runLeafPhase2
      rw [hreq, hmut, hfa, hafter, hhb]
      cases cfg.actionErr <;> cases cfg.afterErr <;> simp
    | true =>
      have hbe : cfg.beforeErr = none := by
        rcases hb with hb | hb
        · rw [hb] at hhb; cases hhb
        · exact hb
      unfold runLeaf runLeafCore runLeafPhase2
      rw [hreq, hmut, hfa, hafter, hhb, hbe]
      cases cfg.actionErr <;> cases cfg.afterErr <;> simp
  · intro e hhb hbe
    unfold runLeaf runLeafCore
    rw [hreq, hmut, hafter, hhb, hbe]
    cases cfg.afterErr <;> simp

/-- Witness for claim C6 (amended): a failing action with a failing `After`
hook surfaces both errors after `After` ran, and a failing `Before` hook
still lets the deferred `After` hook run. -/
theorem after_hook_always_runs_witness :
    (runLeaf ⟨true, some "after failed", none, none, true, none, none,
        some "action failed"⟩).1
      = [Ev.beforeHook, Ev.flagActions, Ev.action, Ev.afterHook] ∧
    (runLeaf ⟨true, some "after failed", none, none, true, none, none,
        some "action failed"⟩).2 = ["action failed", "after failed"] ∧
    Ev.afterHook ∈ (runLeaf ⟨true, some "after failed", none, none, true,
        some "early", none, none⟩).1 := by
  refine ⟨?_, ?_, ?_⟩
  · have h := (after_hook_always_runs
      ⟨true, some "after failed", none, none, true, none, none, some "action failed"⟩
      rfl rfl rfl rfl).1 (Or.inr rfl)
    rw [h.1]
    decide
  · have h := (after_hook_always_runs
      ⟨true, some "after failed", none, none, true, none, none, some "action failed"⟩
      rfl rfl rfl rfl).1 (Or.inr rfl)
    rw [h.2]
    decide
  · exact ((after_hook_always_runs
      ⟨true, some "after failed", none, none, true, some "early", none, none⟩
      rfl rfl rfl rfl).2 "early" rfl rfl).2.1

/-! ## Invalid flag access (claim C8)

Embedding of `Command.lookupFlagSet` (src/command.go lines 800-815),
`Command.onInvalidFlag` (lines 852-860), `Command.Value` (lines 979-987),
`Command.Set` (lines 867-874) and the typed getter pattern of
`Context.Uint64` (src/flag_uint64.go lines 33-38).  The lineage
(`cmd.Lineage()`: the command followed by its ancestors, nearest first) is
reduced to what these functions inspect: each member's `flag.FlagSet` —
`none` models a nil flag set, otherwise the name-to-value association
registered in it — and whether an `InvalidFlagAccessHandler` is configured. -/

/-- A dynamically-typed flag value, as returned by `flag.Getter.Get`. -/
inductive FVal where
  | u (n : Nat)
  | s (v : String)
deriving Repr, DecidableEq

/-- A lineage member as seen by flag access. -/
structure LCmd where
  flagSet : Option (List (String × FVal))
  hasHandler : Bool
deriving Repr, DecidableEq

/-- The loop of `Command.lookupFlagSet`: walking the lineage, skip members
with a nil flag set and return the first flag set in which the name is
registered. -/
def lookupLoop (nm : String) : List LCmd → Option (List (String × FVal))
  | [] => none
  | c :: rest =>
    match c.flagSet with
    | none => lookupLoop nm rest
    | some fs => if fs.any (fun p => p.1 == nm) then some fs else lookupLoop nm rest

/-- Embedding of `Command.onInvalidFlag`: walking from the command up, the
first member with a configured `InvalidFlagAccessHandler` gets its handler
invoked; the result is that member\'s lineage index, `none` when no handler is
configured anywhere. -/
def onInvalidFlagIdx : List LCmd → Option Nat
  | [] => none
  | c :: rest =>
    if c.hasHandler then some 0 else (onInvalidFlagIdx rest).map (· + 1)

/-- Outcome of a flag-name lookup through the lineage: the flag set found, or
— for an unknown name — the handler invocation (with the handler\'s lineage
index) or the silent fall-through. -/
inductive Access where
  | found (fs : List (String × FVal))
  | handled (i : Nat)
  | silent
deriving Repr, DecidableEq

/-- Embedding of `Command.lookupFlagSet` with its `onInvalidFlag` routing on
failure (the Go function then returns nil). -/
def flagAccess (lineage : List LCmd) (nm : String) : Access :=
  match lookupLoop nm lineage with
  | some fs => .found fs
  | none =>
    match onInvalidFlagIdx lineage with
    | some i => .handled i
    | none => .silent

/-- Embedding of `Command.Value`: the flag\'s value from the first matching
flag set; Go `nil` (modelled `none`) when the lookup failed. -/
def cmdValue (lineage : List LCmd) (nm : String) : Option FVal :=
  match lookupLoop nm lineage with
  | some fs => (fs.find? (fun p => p.1 == nm)).map (fun p => p.2)
  | none => none

/-- The typed getter pattern (`Context.Uint64`): the value when it has the
requested type, the zero of the type otherwise. -/
def cmdUint64 (lineage : List LCmd) (nm : String) : Nat :=
  match cmdValue lineage nm with
  | some (.u n) => n
  | _ => 0

/-- Embedding of `Command.Set`: a failed lookup (after the handler routing
captured by `flagAccess`) yields the `no such flag` error; a successful
lookup delegates to `flag.FlagSet.Set`, out of scope here (modelled as
success). -/
def cmdSet (lineage : List LCmd) (nm : String) : Option String :=
  match lookupLoop nm lineage with
  | some _ => none
  | none => some ("no such flag -" ++ nm)

/-- The lineage used to refute claim C8 as stated: the command has a flag set
with one flag `known` and no handler; its parent has a handler. -/
def lin8 : List LCmd := [⟨some [("known", .u 5)], false⟩, ⟨some [], true⟩]

/-- Counterexample to claim C8 as stated: accessing the unknown name `nope`
is routed to the parent\'s handler, yet `Command.Set` still returns a normal
`no such flag` error — the access is not "routed to the handler rather than
raised as a normal error", nor a silent no-op, for `Set`. -/
theorem invalid_flag_set_raises_error :
    flagAccess lin8 "nope" = .handled 1 ∧
      cmdSet lin8 "nope" = some "no such flag -nope" := by
  decide

theorem lookupLoop_none (nm : String) :
    ∀ lineage : List LCmd,
      (∀ c ∈ lineage, ∀ fs, c.flagSet = some fs →
        fs.all (fun p => p.1 != nm) = true) →
      lookupLoop nm lineage = none := by
  intro lineage
  induction lineage with
  | nil => intro _; rfl
  | cons c rest ih =>
    intro h
    have hrest := fun g hg => h g (List.mem_cons_of_mem _ hg)
    cases hfs : c.flagSet with
    | none => rw [lookupLoop, hfs]; exact ih hrest
    | some fs =>
      have hall := h c (List.mem_cons_self _ _) fs hfs
      have hany : fs.any (fun p => p.1 == nm) = false := by
        apply List.any_eq_false.mpr
        intro p hp
        have := List.all_eq_true.mp hall p hp
        simp only [bne_iff_ne, ne_eq] at this
        simpa using this
      simp only [lookupLoop, hfs, hany, Bool.false_eq_true, if_false]
      exact ih hrest

theorem onInvalidFlagIdx_first :
    ∀ (lineage : List LCmd) (i : Nat), onInvalidFlagIdx lineage = some i →
      ∀ j, j < i → ∀ c, lineage[j]? = some c → c.hasHandler = false := by
  intro lineage
  induction lineage with
  | nil => intro i h; cases h
  | cons c rest ih =>
    intro i h j hj g hg
    rw [onInvalidFlagIdx] at h
    by_cases hc : c.hasHandler = true
    · rw [if_pos hc] at h
      cases h
      omega
    · have hcf : c.hasHandler = false := by
        cases hx : c.hasHandler
        · rfl
        · exact absurd hx hc
      rw [if_neg hc] at h
      cases hrec : onInvalidFlagIdx rest with
      | none => rw [hrec] at h; cases h
      | some k =>
        rw [hrec] at h
        simp at h
        cases j with
        | zero =>
          simp only [List.getElem?_cons_zero, Option.some.injEq] at hg
          rw [← hg]
          exact hcf
        | succ j =>
          rw [List.getElem?_cons_succ] at hg
          exact ih k hrec j (by omega) g hg

/-- Claim C8 (amended): querying a flag name unknown to the current command
and its entire ancestor lineage is routed to the nearest configured
`InvalidFlagAccessHandler` (silent fall-through when none is configured);
`Value` returns nil and typed getters return the zero of their type;
`Command.Set`, however, additionally returns a `no such flag` error after the
handler routing. -/
theorem invalid_flag_access (lineage : List LCmd) (nm : String)
    (hunk : ∀ c ∈ lineage, ∀ fs, c.flagSet = some fs →
      fs.all (fun p => p.1 != nm) = true) :
    (∀ i, onInvalidFlagIdx lineage = some i →
      flagAccess lineage nm = .handled i ∧
      ∀ j, j < i → ∀ c, lineage[j]? = some c → c.hasHandler = false) ∧
    (onInvalidFlagIdx lineage = none → flagAccess lineage nm = .silent) ∧
    cmdValue lineage nm = none ∧
    cmdUint64 lineage nm = 0 ∧
    cmdSet lineage nm = some ("no such flag -" ++ nm) := by
  have hloop := lookupLoop_none nm lineage hunk
  refine ⟨fun i hi => ⟨?_, onInvalidFlagIdx_first lineage i hi⟩, fun hn => ?_, ?_, ?_, ?_⟩
  · unfold flagAccess
    rw [hloop, hi]
  · unfold flagAccess
    rw [hloop, hn]
  · unfold cmdValue
    rw [hloop]
  · unfold cmdUint64 cmdValue
    rw [hloop]
  · unfold cmdSet
    rw [hloop]

/-- Witness for claim C8 (amended) on a three-member lineage whose handler
sits in the middle: the unknown name `ghost` is routed to the handler at
index 1, `Value`/`Uint64` return their zero values and `Set` errors. -/
theorem invalid_flag_access_witness :
    flagAccess [⟨none, false⟩, ⟨some [("a", .u 1)], true⟩, ⟨some [], true⟩] "ghost"
        = .handled 1 ∧
      cmdValue [⟨none, false⟩, ⟨some [("a", .u 1)], true⟩, ⟨some [], true⟩] "ghost"
        = none ∧
      cmdUint64 [⟨none, false⟩, ⟨some [("a", .u 1)], true⟩, ⟨some [], true⟩] "ghost"
        = 0 ∧
      cmdSet [⟨none, false⟩, ⟨some [("a", .u 1)], true⟩, ⟨some [], true⟩] "ghost"
        = some "no such flag -ghost" :=
  have h := invalid_flag_access
    [⟨none, false⟩, ⟨some [("a", .u 1)], true⟩, ⟨some [], true⟩] "ghost" (by decide)
  ⟨(h.1 1 (by decide)).1, h.2.2.1, h.2.2.2.1, h.2.2.2.2⟩

end Cli
